import Mathlib

/-!
# Conference room booking (`project.cpp`): embedding and verified properties

The C++ program is embedded shallowly:

* a `std::string` is the list of its characters (`Str`);
* a `const ConferenceBase*` is an address (`Ptr`) and the objects alive at a
  given moment are a `Heap`; dereferencing an address with no live object is
  undefined behaviour and makes the embedded function return `none`;
* the file `conferences.csv` is a `Disk`: its text (if the file exists) and
  whether it can be opened for reading / for writing;
* what is printed on `std::cout` / `std::cerr` is a list of `Out` events;
* `std::istream` is the unread text together with its `eofbit` and `failbit`.
-/

namespace ConferenceSystem

/-! ## Data model -/

/-- A `std::string`: the list of its characters. -/
abbrev Str := List Char

/-- The four private members of `class Conference` (lines 39-43). -/
structure Conference where
  name : Str
  anchor : Str
  time : Str
  date : Str
deriving DecidableEq, Repr

/-- A `const ConferenceBase*`: the address of an object. -/
abbrev Ptr := Nat

/-- The conference objects alive at some moment, by address. -/
abbrev Heap := Ptr → Option Conference

/-- Storing (or destroying, with `none`) the object at address `a`. -/
def Heap.store (h : Heap) (a : Ptr) (v : Option Conference) : Heap :=
  fun p => if p = a then v else h p

/-- The private members of `class ConferenceRoom` (lines 119-120). -/
structure ConferenceRoom where
  conferences : List (Ptr × Str)
  lastRoomNumber : Str
deriving DecidableEq, Repr

/-- The constructor `ConferenceRoom() : lastRoomNumber("C0")` (line 48). -/
def ConferenceRoom.fresh : ConferenceRoom :=
  { conferences := [], lastRoomNumber := ['C', '0'] }

/-- The file `conferences.csv`: its text when the file exists, and whether an
`ifstream` / an appending `ofstream` on it opens. -/
structure Disk where
  content : Option Str
  canRead : Bool
  canWrite : Bool
deriving DecidableEq, Repr

/-- One thing printed by the program. -/
inductive Out where
  /-- Line 61: "Thank you for booking the conference in Room ...!". -/
  | thankYou (roomNumber : Str)
  /-- Line 69: "No conferences booked in this room.". -/
  | noConferences
  /-- Line 71: "Conferences booked in this room:". -/
  | bookedHeader
  /-- Lines 73-78 and 107-112: the five labelled lines and the separator. -/
  | entry (name anchor time date roomNumber : Str)
  /-- Line 82: "Slots left: " and the number. -/
  | slotsLeft (n : Nat)
  /-- Line 83: "Slots booked: " and the number. -/
  | slotsBooked (n : Nat)
  /-- Line 93: the error on `std::cerr` when the file cannot be read. -/
  | errRead
  /-- Line 136: the error on `std::cerr` when the file cannot be written. -/
  | errWrite
  /-- Lines 166-171: `Utils::displayConferenceDetails`. -/
  | details (name anchor time date roomNumber : Str)
  /-- Lines 239 / 241: whether the conference is today. -/
  | today (b : Bool)
deriving DecidableEq, Repr

/-! ## Characters and `size_t` -/

/-- The operator `++` on a `char`: the next code, in 8 bits. -/
def charIncr (c : Char) : Char := Char.ofNat ((c.toNat + 1) % 256)

/-- The value of a `char` once promoted to `int` (plain `char` is signed, as on
x86-64 Linux: codes from 128 on are negative). -/
def charToInt (c : Char) : Int :=
  if c.toNat % 256 < 128 then (c.toNat % 256 : Nat) else ((c.toNat % 256 : Nat) : Int) - 256

/-- The number of values of `size_t` (64 bits). -/
def SIZE_MOD : Nat := 2 ^ 64

/-! ## `ConferenceRoom` -/

/-- Lines 52-58 of `bookConference`: `lastRoomNumber[1]++`, and when the result
is above `'9'`, `lastRoomNumber[1] = '1'; lastRoomNumber[0]++`. A string
shorter than two characters has no writable `[1]`: `none`. -/
def advanceRoomNumber (lastRoomNumber : Str) : Option Str :=
  match lastRoomNumber with
  | c0 :: c1 :: rest =>
    let c1 := charIncr c1
    if charToInt c1 > charToInt '9' then
      some (charIncr c0 :: '1' :: rest)
    else
      some (c0 :: c1 :: rest)
  | _ => none

/-- The line written by `saveConferenceToCSV` (lines 140-142). -/
def csvLine (c : Conference) (roomNumber : Str) : Str :=
  c.name ++ [','] ++ c.anchor ++ [','] ++ c.time ++ [','] ++ c.date ++ [','] ++
    roomNumber ++ ['\n']

/-- `ConferenceRoom::saveConferenceToCSV` (lines 132-145): open in append mode;
when that fails report and return; otherwise append one line. The getters are
called on `conference` only once the file is open. -/
def saveConferenceToCSV (heap : Heap) (conference : Ptr) (roomNumber : Str) (disk : Disk) :
    Option (Disk × List Out) :=
  if disk.canWrite = false then
    some (disk, [Out.errWrite])
  else
    match heap conference with
    | none => none
    | some c =>
      some ({ disk with content := some (disk.content.getD [] ++ csvLine c roomNumber) }, [])

/-- `ConferenceRoom::bookConference` (lines 50-65). -/
def bookConference (heap : Heap) (room : ConferenceRoom) (conference : Ptr) (disk : Disk) :
    Option (ConferenceRoom × Disk × List Out) :=
  match advanceRoomNumber room.lastRoomNumber with
  | none => none
  | some lastRoomNumber =>
    let room : ConferenceRoom :=
      { conferences := room.conferences ++ [(conference, lastRoomNumber)],
        lastRoomNumber := lastRoomNumber }
    match saveConferenceToCSV heap conference lastRoomNumber disk with
    | none => none
    | some (disk, out) => some (room, disk, Out.thankYou lastRoomNumber :: out)

/-- `ConferenceRoom::getLastBookedRoomNumber` (lines 86-88). -/
def getLastBookedRoomNumber (room : ConferenceRoom) : Str := room.lastRoomNumber

/-- The loop of `displayConferences` (lines 72-79): every stored pointer is
dereferenced. -/
def displayEntries (heap : Heap) : List (Ptr × Str) → Option (List Out)
  | [] => some []
  | (p, roomNumber) :: rest =>
    match heap p with
    | none => none
    | some c =>
      match displayEntries heap rest with
      | none => none
      | some out => some (Out.entry c.name c.anchor c.time c.date roomNumber :: out)

/-- `conferences.size()`, a `size_t`. -/
def vecSize (conferences : List (Ptr × Str)) : Nat := conferences.length % SIZE_MOD

/-- `ConferenceRoom::displayConferences` (lines 67-84). In
`15 - conferences.size()` the `15` is converted to `size_t` and the
subtraction is modulo `SIZE_MOD`. -/
def displayConferences (heap : Heap) (room : ConferenceRoom) : Option (List Out) :=
  let tail : List Out :=
    [Out.slotsLeft ((15 + SIZE_MOD - vecSize room.conferences) % SIZE_MOD),
     Out.slotsBooked (vecSize room.conferences)]
  if room.conferences.isEmpty then
    some (Out.noConferences :: tail)
  else
    match displayEntries heap room.conferences with
    | none => none
    | some out => some (Out.bookedHeader :: out ++ tail)

/-- `ConferenceRoom::isRoomBooked` (lines 122-130). -/
def isRoomBooked (room : ConferenceRoom) (roomNumber : Str) : Bool :=
  room.conferences.any (fun conf => conf.2 = roomNumber)

/-! ## Input streams -/

/-- A `std::istream` over a fixed text: what is still unread, and the two
state bits the program depends on. -/
structure IStream where
  buf : Str
  eofbit : Bool
  failbit : Bool
deriving DecidableEq, Repr

/-- A stream just opened on `text`. -/
def IStream.open (text : Str) : IStream := { buf := text, eofbit := false, failbit := false }

/-- The member `good()`. -/
def IStream.good (s : IStream) : Bool := !s.eofbit && !s.failbit

/-- The extraction of `std::getline`: the characters before the first `delim`
and, when there is one, what follows it (the delimiter is dropped); `none` as
second component when the end of the text is reached first. -/
def extractUntil (delim : Char) : Str → Str × Option Str
  | [] => ([], none)
  | c :: cs =>
    if c = delim then ([], some cs)
    else ((c :: (extractUntil delim cs).1), (extractUntil delim cs).2)

/-- The call `std::getline(is, str, delim)`: with a stream that is not good the
sentry fails, `failbit` is set and `str` is left as it is; otherwise `str` is
erased and filled up to the delimiter; reaching the end sets `eofbit`, and
`failbit` too when nothing at all was extracted. -/
def getline (is : IStream) (str : Str) (delim : Char) : IStream × Str :=
  if is.good = false then
    ({ is with failbit := true }, str)
  else
    match extractUntil delim is.buf with
    | (s, some rest) => ({ is with buf := rest }, s)
    | (s, none) => ({ buf := [], eofbit := true, failbit := s.isEmpty }, s)

/-- The body of the loop of `displayAllConferencesFromFile` (lines 99-112):
five `getline`s with delimiter `','` on a stream over the line, each into a
string that starts empty, then the record is printed. -/
def parseLine (line : Str) : Out :=
  let iss := IStream.open line
  let r1 := getline iss [] ','
  let r2 := getline r1.1 [] ','
  let r3 := getline r2.1 [] ','
  let r4 := getline r3.1 [] ','
  let r5 := getline r4.1 [] ','
  Out.entry r1.2 r2.2 r3.2 r4.2 r5.2

/-- The loop `while (std::getline(file, line)) ...` (lines 98-113), with a
bound on the number of iterations; `none` when the bound is reached. -/
def readLoop : Nat → IStream → Str → Option (List Out)
  | 0, _, _ => none
  | fuel + 1, file, line =>
    let r := getline file line '\n'
    if r.1.failbit then some []
    else
      match readLoop fuel r.1 r.2 with
      | none => none
      | some out => some (parseLine r.2 :: out)

/-- `ConferenceRoom::displayAllConferencesFromFile` (lines 90-116). Each
iteration of the loop consumes at least one character, so one more iteration
than there are characters is enough. -/
def displayAllConferencesFromFile (disk : Disk) : Option (List Out) :=
  match disk.content with
  | none => some [Out.errRead]
  | some text =>
    if disk.canRead = false then some [Out.errRead]
    else readLoop (text.length + 1) (IStream.open text) []

/-! ## Regular expressions and the validators -/

/-- The fragment of ECMAScript regular expressions used by the validators:
one character of a class, concatenation, alternation. -/
inductive Rx where
  | set (p : Char → Bool)
  | seq (a b : Rx)
  | alt (a b : Rx)

/-- All the ways `r` can match a prefix of `s`: the list of what remains
unmatched after each. -/
def Rx.run : Rx → Str → List Str
  | Rx.set _, [] => []
  | Rx.set p, c :: cs => if p c then [cs] else []
  | Rx.seq a b, s => (a.run s).flatMap (fun t => b.run t)
  | Rx.alt a b, s => a.run s ++ b.run s

/-- `std::regex_match(s, r)`: some match of `r` covers the whole of `s`. -/
def regex_match (s : Str) (r : Rx) : Bool := (r.run s).any (fun t => t.isEmpty)

/-- The literal character `c`. -/
def Rx.chr (c : Char) : Rx := Rx.set (fun x => x = c)

/-- The bracket expression `[lo-hi]`. -/
def Rx.range (lo hi : Char) : Rx := Rx.set (fun x => lo.toNat ≤ x.toNat && x.toNat ≤ hi.toNat)

/-- The bracket expression `[ab]`. -/
def Rx.oneOf (a b : Char) : Rx := Rx.set (fun x => x = a || x = b)

/-- The class `\d`. -/
def Rx.digit : Rx := Rx.range '0' '9'

/-- The pattern of `validateDate` (line 184),
`^(0[1-9]|[12][0-9]|3[01])/(0[1-9]|1[0-2])/(19|20)\d\d$`; under `regex_match`
the anchors `^` and `$` hold at the two ends, where they stand. -/
def dateRx : Rx :=
  Rx.seq
    (Rx.alt (Rx.seq (Rx.chr '0') (Rx.range '1' '9'))
      (Rx.alt (Rx.seq (Rx.oneOf '1' '2') (Rx.range '0' '9'))
        (Rx.seq (Rx.chr '3') (Rx.oneOf '0' '1'))))
    (Rx.seq (Rx.chr '/')
      (Rx.seq
        (Rx.alt (Rx.seq (Rx.chr '0') (Rx.range '1' '9'))
          (Rx.seq (Rx.chr '1') (Rx.range '0' '2')))
        (Rx.seq (Rx.chr '/')
          (Rx.seq
            (Rx.alt (Rx.seq (Rx.chr '1') (Rx.chr '9')) (Rx.seq (Rx.chr '2') (Rx.chr '0')))
            (Rx.seq Rx.digit Rx.digit)))))

/-- `validateDate` (lines 183-185). -/
def validateDate (date : Str) : Bool := regex_match date dateRx

/-! ## Formatted extraction and the date checks -/

/-- The fields of `struct tm` the program reads from `localtime`. -/
structure Tm where
  tm_year : Int
  tm_mon : Int
  tm_mday : Int
deriving DecidableEq, Repr

/-- The largest `int`. -/
def INT_MAX : Int := 2147483647

/-- The smallest `int`. -/
def INT_MIN : Int := -2147483648

/-- White space of the "C" locale. -/
def isSpace (c : Char) : Bool :=
  c = ' ' || c = '\t' || c = '\n' || c = '\r' || c = Char.ofNat 11 || c = Char.ofNat 12

/-- A decimal digit. -/
def isDigit (c : Char) : Bool := '0'.toNat ≤ c.toNat && c.toNat ≤ '9'.toNat

/-- The number written by a run of decimal digits. -/
def digitsValue (ds : Str) : Nat := ds.foldl (fun acc c => 10 * acc + (c.toNat - '0'.toNat)) 0

/-- The sentry of a formatted extraction: fails (setting `failbit`) on a stream
that is not good; otherwise skips white space, and fails with `eofbit` and
`failbit` when nothing is left. -/
def sentry (is : IStream) : IStream × Bool :=
  if is.good = false then
    ({ is with failbit := true }, false)
  else
    match is.buf.dropWhile isSpace with
    | [] => ({ buf := [], eofbit := true, failbit := true }, false)
    | c :: cs => ({ is with buf := c :: cs }, true)

/-- The sign read by `operator>>(int&)`, and what follows it. -/
def readSign : Str → Bool × Str
  | '-' :: cs => (true, cs)
  | '+' :: cs => (false, cs)
  | cs => (false, cs)

/-- `is >> n` for an `int n`: the stream afterwards and the value assigned to
`n`, `none` when `n` is not written (the sentry failed). With no digit the value
is 0 and `failbit` is set; out of range the value is clamped and `failbit` is
set; `eofbit` is set when the digits run to the end of the text. -/
def extractInt (is : IStream) : IStream × Option Int :=
  let s := sentry is
  if s.2 = false then (s.1, none)
  else
    let sg := readSign s.1.buf
    let ds := sg.2.takeWhile isDigit
    let rest := sg.2.dropWhile isDigit
    if ds.isEmpty then
      ({ buf := rest, eofbit := rest.isEmpty, failbit := true }, some 0)
    else
      let v : Int := if sg.1 then -(digitsValue ds : Int) else (digitsValue ds : Int)
      if v > INT_MAX then ({ buf := rest, eofbit := rest.isEmpty, failbit := true }, some INT_MAX)
      else if v < INT_MIN then
        ({ buf := rest, eofbit := rest.isEmpty, failbit := true }, some INT_MIN)
      else ({ buf := rest, eofbit := rest.isEmpty, failbit := false }, some v)

/-- `is >> c` for a `char c`: the first character after white space. -/
def extractChar (is : IStream) : IStream × Option Char :=
  let s := sentry is
  if s.2 = false then (s.1, none)
  else
    match s.1.buf with
    | [] => (s.1, none)
    | c :: cs => ({ s.1 with buf := cs }, some c)

/-- The statement `ss >> day >> discard >> month >> discard >> year` on a
stream over `date` (lines 157-160 and 191-194): the values of `day`, `month`
and `year` afterwards, `none` for a variable that was never written. -/
def scanDate (date : Str) : Option Int × Option Int × Option Int :=
  let r1 := extractInt (IStream.open date)
  let r2 := extractChar r1.1
  let r3 := extractInt r2.1
  let r4 := extractChar r3.1
  let r5 := extractInt r4.1
  (r1.2, r3.2, r5.2)

/-- `isPastDate` (lines 187-199), with the result of `localtime` as
`currentDate`. The operands of `||` and `&&` are evaluated from the left and
only as far as needed; reading a variable that was never written is undefined
behaviour (`none`). -/
def isPastDate (currentDate : Tm) (date : Str) : Option Bool :=
  match scanDate date with
  | (day, month, year) =>
    match year with
    | none => none
    | some year =>
      if currentDate.tm_year + 1900 > year then some true
      else if currentDate.tm_year + 1900 = year then
        match month with
        | none => none
        | some month =>
          if currentDate.tm_mon + 1 > month then some true
          else if currentDate.tm_mon + 1 = month then
            match day with
            | none => none
            | some day => some (decide (currentDate.tm_mday > day))
          else some false
      else some false

/-- `Utils::isConferenceToday` (lines 153-163) on the date of the conference. -/
def isConferenceToday (currentDate : Tm) (date : Str) : Option Bool :=
  match scanDate date with
  | (day, month, year) =>
    match day with
    | none => none
    | some day =>
      if currentDate.tm_mday = day then
        match month with
        | none => none
        | some month =>
          if currentDate.tm_mon + 1 = month then
            match year with
            | none => none
            | some year => some (decide (currentDate.tm_year + 1900 = year))
          else some false
      else some false

/-- The condition of the loop around the date prompt in `main` (line 225),
`!validateDate(date) || isPastDate(date)`: whether the prompt is repeated. -/
def datePromptRepeats (currentDate : Tm) (date : Str) : Option Bool :=
  if validateDate date = false then some true else isPastDate currentDate date

/-! ## The loop of `main` -/

/-- What one pass of the loop of `main` reads: the four strings that passed
their prompts and the menu choice; `addr` is where the local object
`userConference` of that pass is placed. -/
structure Request where
  name : Str
  anchor : Str
  date : Str
  time : Str
  choice : Int
  addr : Ptr
deriving DecidableEq, Repr

/-- The loop of `main` (lines 212-260) over the requests that are read. The
object `userConference` lives from line 232 to the end of the pass, when it is
destroyed. The result is the room, the file and everything printed by the
calls on the room and by `Utils`; the run stops at menu choice 3 or when no
request is left. -/
def mainLoop (currentDate : Tm) :
    Heap → ConferenceRoom → Disk → List Request → Option (ConferenceRoom × Disk × List Out)
  | _, room, disk, [] => some (room, disk, [])
  | heap, room, disk, rq :: rest =>
    let userConference : Conference :=
      { name := rq.name, anchor := rq.anchor, time := rq.time, date := rq.date }
    let heap1 := heap.store rq.addr (some userConference)
    match bookConference heap1 room rq.addr disk with
    | none => none
    | some (room1, disk1, out1) =>
      match displayConferences heap1 room1 with
      | none => none
      | some out2 =>
        let out3 :=
          [Out.details userConference.name userConference.anchor userConference.time
            userConference.date (getLastBookedRoomNumber room1)]
        match isConferenceToday currentDate userConference.date with
        | none => none
        | some b =>
          let out := out1 ++ out2 ++ out3 ++ [Out.today b]
          if rq.choice = 1 then
            match displayAllConferencesFromFile disk1 with
            | none => none
            | some out5 =>
              match mainLoop currentDate (heap1.store rq.addr none) room1 disk1 rest with
              | none => none
              | some (room2, disk2, out6) => some (room2, disk2, out ++ out5 ++ out6)
          else if rq.choice = 3 then
            some (room1, disk1, out)
          else
            match mainLoop currentDate (heap1.store rq.addr none) room1 disk1 rest with
            | none => none
            | some (room2, disk2, out6) => some (room2, disk2, out ++ out6)

/-! ## Sequences of bookings and the notions used to state the properties -/

/-- A sequence of calls of `bookConference` on one room, each with the objects
alive at the time of the call and the pointer passed. The third component is
what `getLastBookedRoomNumber` returns after each call: the room number the
call assigned. -/
def bookAll : ConferenceRoom → Disk → List (Heap × Ptr) →
    Option (ConferenceRoom × Disk × List Str)
  | room, disk, [] => some (room, disk, [])
  | room, disk, call :: calls =>
    match bookConference call.1 room call.2 disk with
    | none => none
    | some (room1, disk1, _) =>
      match bookAll room1 disk1 calls with
      | none => none
      | some (room2, disk2, assigned) =>
        some (room2, disk2, getLastBookedRoomNumber room1 :: assigned)

/-- The successive values of `lastRoomNumber` over `n` increments. -/
def advanceList : Str → Nat → Option (List Str)
  | _, 0 => some []
  | s, n + 1 =>
    match advanceRoomNumber s with
    | none => none
    | some s1 =>
      match advanceList s1 n with
      | none => none
      | some l => some (s1 :: l)

/-- The room numbers of the first sixteen bookings on a fresh room. -/
def firstRoomNumbers : List Str :=
  [['C', '1'], ['C', '2'], ['C', '3'], ['C', '4'], ['C', '5'], ['C', '6'], ['C', '7'],
   ['C', '8'], ['C', '9'], ['D', '1'], ['D', '2'], ['D', '3'], ['D', '4'], ['D', '5'],
   ['D', '6'], ['D', '7']]

/-- The operator `<` of `std::string`: the first position where the strings
differ decides, characters compared by code; a proper prefix is smaller. -/
def strLess : Str → Str → Bool
  | [], [] => false
  | [], _ :: _ => true
  | _ :: _, [] => false
  | a :: as, b :: bs =>
    if a.toNat < b.toNat then true
    else if b.toNat < a.toNat then false
    else strLess as bs

/-- The room numbers of the specification: the letter `C` followed by the
decimal writing of a number from 1 to 15. -/
def isCSlot (s : Str) : Bool :=
  (List.range 15).any (fun i => s = 'C' :: Nat.toDigits 10 (i + 1))

/-- The decimal digit for `k` (for `k` below ten). -/
def digitChar (k : Nat) : Char := Char.ofNat ('0'.toNat + k)

/-- Room numbers made of the letter `C` or `D` and one digit from 1 to 9. -/
def isLetterDigitSlot (s : Str) : Bool :=
  match s with
  | [l, d] => (l = 'C' || l = 'D') && '1'.toNat ≤ d.toNat && d.toNat ≤ '9'.toNat
  | _ => false

/-! ## Concrete inputs -/

/-- The conference of the example of the specification. -/
def kickoff : Conference :=
  { name := "Kickoff".toList, anchor := "Jordan Lee".toList, time := "09:30 AM".toList,
    date := "05/01/2025".toList }

/-- One live object, `kickoff`, at address 0. -/
def kickoffHeap : Heap := Heap.store (fun _ => none) 0 (some kickoff)

/-- An existing, empty `conferences.csv` that can be read and written. -/
def emptyDisk : Disk := { content := some [], canRead := true, canWrite := true }

/-- A `conferences.csv` that cannot be opened for writing. -/
def lockedDisk : Disk := { content := some [], canRead := true, canWrite := false }

/-- The same booking call `n` times: `kickoff` through its address. -/
def kickoffCalls (n : Nat) : List (Heap × Ptr) := List.replicate n (kickoffHeap, 0)

/-- The `i`-th comma-separated piece of a line, counted from 0; empty when the
line has fewer pieces. -/
def commaPiece (line : Str) (i : Nat) : Str := ((line.splitOn ',')[i]?).getD []

/-- The text has no comma and no newline. -/
def plainField (s : Str) : Prop := ',' ∉ s ∧ '\n' ∉ s

/-- The open, readable and writable file with the given text. -/
def Disk.ofText (text : Str) : Disk := { content := some text, canRead := true, canWrite := true }

/-- The day on which the example session runs: 1 December 2024. -/
def exampleToday : Tm := { tm_year := 124, tm_mon := 11, tm_mday := 1 }

/-- The first request of the example session: `kickoff`, then menu choice 2;
the local object is placed at `addr`. -/
def kickoffRequest (addr : Ptr) : Request :=
  { name := kickoff.name, anchor := kickoff.anchor, date := kickoff.date, time := kickoff.time,
    choice := 2, addr := addr }

/-- The second request of the example session, then menu choice 3. -/
def reviewRequest (addr : Ptr) : Request :=
  { name := "Review".toList, anchor := "Sam Roe".toList, date := "06/01/2025".toList,
    time := "10:00 AM".toList, choice := 3, addr := addr }

/-- The bookings shown by `displayConferences` in a printed trace: the name and
the room number of every entry. -/
def shownBookings (out : List Out) : List (Str × Str) :=
  out.filterMap (fun o =>
    match o with
    | Out.entry name _ _ _ roomNumber => some (name, roomNumber)
    | _ => none)

/-- The value of a decimal digit. -/
def digitVal (c : Char) : Int := ((c.toNat - '0'.toNat : Nat) : Int)

/-- The (year, month, day) that a string of the form `DD/MM/YYYY` denotes. -/
def dateDenoted : Str → Int × Int × Int
  | [d1, d2, _, m1, m2, _, y1, y2, y3, y4] =>
    (1000 * digitVal y1 + 100 * digitVal y2 + 10 * digitVal y3 + digitVal y4,
     10 * digitVal m1 + digitVal m2,
     10 * digitVal d1 + digitVal d2)
  | _ => (0, 0, 0)

/-- Calendar order on (year, month, day): `a` is strictly earlier than `b`. -/
def calendarBefore (a b : Int × Int × Int) : Bool :=
  decide (a.1 < b.1) ||
    (decide (a.1 = b.1) &&
      (decide (a.2.1 < b.2.1) || (decide (a.2.1 = b.2.1) && decide (a.2.2 < b.2.2))))

/-- The `struct tm` that `localtime` returns on the day (year, month, day). -/
def tmOf (year month day : Int) : Tm :=
  { tm_year := year - 1900, tm_mon := month - 1, tm_mday := day }

/-- The lines of a text file: the pieces between newlines, where a newline at
the very end closes the last line and opens no further, empty one (the empty
text has no line). -/
def fileLines (text : Str) : List Str :=
  if (text.splitOn '\n').getLast? = some [] then (text.splitOn '\n').dropLast
  else text.splitOn '\n'

/-- The record with the first five comma-separated pieces of a line as its
fields, empty where the line has fewer pieces. -/
def recordOfPieces (line : Str) : Out :=
  Out.entry (commaPiece line 0) (commaPiece line 1) (commaPiece line 2)
    (commaPiece line 3) (commaPiece line 4)

/-! ## Room numbers: what a booking does to the room -/

theorem advanceList_fresh (n : Nat) (h : n ≤ 16) :
    advanceList ['C', '0'] n = some (firstRoomNumbers.take n) := by
  interval_cases n <;> decide

theorem saveConferenceToCSV_live {heap : Heap} {p : Ptr} {c : Conference} (rn : Str) (disk : Disk)
    (hp : heap p = some c) :
    saveConferenceToCSV heap p rn disk =
      some (if disk.canWrite = false then disk
            else { disk with content := some (disk.content.getD [] ++ csvLine c rn) },
            if disk.canWrite = false then [Out.errWrite] else []) := by
  unfold saveConferenceToCSV
  by_cases hw : disk.canWrite = false
  · simp [hw]
  · simp [hw, hp]

theorem bookConference_live {heap : Heap} {p : Ptr} {c : Conference} (room : ConferenceRoom)
    {rn : Str} (disk : Disk) (hp : heap p = some c)
    (hr : advanceRoomNumber room.lastRoomNumber = some rn) :
    bookConference heap room p disk =
      some ({ conferences := room.conferences ++ [(p, rn)], lastRoomNumber := rn },
            (if disk.canWrite = false then disk
             else { disk with content := some (disk.content.getD [] ++ csvLine c rn) }),
            Out.thankYou rn :: (if disk.canWrite = false then [Out.errWrite] else [])) := by
  unfold bookConference
  simp only [hr, saveConferenceToCSV_live rn disk hp]

theorem bookAll_spec (calls : List (Heap × Ptr)) :
    ∀ (room : ConferenceRoom) (disk : Disk) (l : List Str),
      advanceList room.lastRoomNumber calls.length = some l →
      (∀ call ∈ calls, (call.1 call.2).isSome = true) →
      ∃ disk1, bookAll room disk calls =
        some ({ conferences := room.conferences ++ (calls.map Prod.snd).zip l,
                lastRoomNumber := l.getLast?.getD room.lastRoomNumber }, disk1, l) := by
  induction calls with
  | nil =>
    intro room disk l hl _
    simp only [List.length_nil, advanceList, Option.some.injEq] at hl
    subst hl
    exact ⟨disk, by simp [bookAll]⟩
  | cons call calls ih =>
    intro room disk l hl hlive
    simp only [List.length_cons, advanceList] at hl
    cases hadv : advanceRoomNumber room.lastRoomNumber with
    | none => simp [hadv] at hl
    | some rn =>
      simp only [hadv] at hl
      cases hrest : advanceList rn calls.length with
      | none => simp [hrest] at hl
      | some l1 =>
        simp only [hrest, Option.some.injEq] at hl
        subst hl
        obtain ⟨c, hc⟩ := Option.isSome_iff_exists.mp (hlive call (List.mem_cons_self _ _))
        have hb := bookConference_live room disk hc hadv
        obtain ⟨disk2, h2⟩ := ih { conferences := room.conferences ++ [(call.2, rn)],
                                   lastRoomNumber := rn }
          (if disk.canWrite = false then disk
             else { disk with content := some (disk.content.getD [] ++ csvLine c rn) }) l1 hrest
          (fun x hx => hlive x (List.mem_cons_of_mem _ hx))
        refine ⟨disk2, ?_⟩
        simp only [bookAll, hb, h2, getLastBookedRoomNumber]
        cases l1 with
        | nil => simp
        | cons a t =>
          have hne : (a :: t).getLast? = some ((a :: t).getLast (List.cons_ne_nil _ _)) :=
            List.getLast?_eq_getLast _ _
          simp [hne]

theorem bookAll_fresh (calls : List (Heap × Ptr)) (disk : Disk) (hN : calls.length ≤ 16)
    (hlive : ∀ call ∈ calls, (call.1 call.2).isSome = true) :
    ∃ disk1, bookAll ConferenceRoom.fresh disk calls =
      some ({ conferences := (calls.map Prod.snd).zip (firstRoomNumbers.take calls.length),
              lastRoomNumber :=
                (firstRoomNumbers.take calls.length).getLast?.getD ['C', '0'] },
            disk1, firstRoomNumbers.take calls.length) := by
  obtain ⟨disk1, h⟩ := bookAll_spec calls ConferenceRoom.fresh disk _
    (advanceList_fresh calls.length hN) hlive
  exact ⟨disk1, by simpa [ConferenceRoom.fresh] using h⟩

theorem firstRoomNumbers_take_length (n : Nat) (h : n ≤ 16) :
    (firstRoomNumbers.take n).length = n := by
  simp [firstRoomNumbers]; omega

theorem displayEntries_live (heap : Heap) (entries : List (Ptr × Str))
    (h : ∀ e ∈ entries, (heap e.1).isSome = true) :
    ∃ out, displayEntries heap entries = some out := by
  induction entries with
  | nil => exact ⟨[], rfl⟩
  | cons e rest ih =>
    obtain ⟨c, hc⟩ := Option.isSome_iff_exists.mp (h e (List.mem_cons_self _ _))
    obtain ⟨out, ho⟩ := ih (fun x hx => h x (List.mem_cons_of_mem _ hx))
    obtain ⟨p, rn⟩ := e
    exact ⟨_, by simp only [displayEntries]; simp only [] at hc; rw [hc, ho]⟩

theorem displayConferences_live (heap : Heap) (room : ConferenceRoom)
    (h : ∀ e ∈ room.conferences, (heap e.1).isSome = true) :
    ∃ out, displayConferences heap room =
      some (out ++ [Out.slotsLeft ((15 + SIZE_MOD - vecSize room.conferences) % SIZE_MOD),
                    Out.slotsBooked (vecSize room.conferences)]) := by
  unfold displayConferences
  by_cases he : room.conferences.isEmpty = true
  · exact ⟨[Out.noConferences], by simp [he]⟩
  · obtain ⟨out, ho⟩ := displayEntries_live heap room.conferences h
    exact ⟨Out.bookedHeader :: out, by simp [he, ho]⟩

/-- C1: from a fresh room, over any sequence of at most 15 bookings (each on a
live conference object), every call is assigned a room number strictly
greater, as a string, than the one of the call before, and afterwards the
in-memory list has as many bookings as there were calls, which is what
`displayConferences` prints as "Slots booked". -/
theorem bookConference_numbers_increase (calls : List (Heap × Ptr)) (disk : Disk)
    (hN : calls.length ≤ 15) (hlive : ∀ call ∈ calls, (call.1 call.2).isSome = true) :
    ∃ room disk1 assigned,
      bookAll ConferenceRoom.fresh disk calls = some (room, disk1, assigned) ∧
      assigned.length = calls.length ∧
      List.Chain' (fun a b => strLess a b = true) assigned ∧
      room.conferences.length = calls.length ∧
      ∀ heap : Heap, (∀ call ∈ calls, (heap call.2).isSome = true) →
        ∃ out, displayConferences heap room =
          some (out ++ [Out.slotsBooked calls.length]) := by
  obtain ⟨disk1, h⟩ := bookAll_fresh calls disk (by omega) hlive
  have hlen := firstRoomNumbers_take_length calls.length (by omega)
  refine ⟨_, disk1, _, h, hlen, ?_, ?_, ?_⟩
  · generalize calls.length = n at hN
    interval_cases n <;> simp [firstRoomNumbers, strLess]
  · simp [List.length_zip, hlen]
  · intro heap hheap
    have hmem : ∀ e ∈ (calls.map Prod.snd).zip (firstRoomNumbers.take calls.length),
        (heap e.1).isSome = true := by
      intro e he
      have h1 : e.1 ∈ calls.map Prod.snd := (List.of_mem_zip he).1
      obtain ⟨call, hcall, hce⟩ := List.mem_map.mp h1
      rw [← hce]
      exact hheap call hcall
    obtain ⟨out, ho⟩ := displayConferences_live heap
      { conferences := (calls.map Prod.snd).zip (firstRoomNumbers.take calls.length),
        lastRoomNumber := (firstRoomNumbers.take calls.length).getLast?.getD ['C', '0'] } hmem
    have hsz : vecSize ((calls.map Prod.snd).zip (firstRoomNumbers.take calls.length))
        = calls.length := by
      unfold vecSize SIZE_MOD
      rw [List.length_zip, hlen, List.length_map, Nat.min_self]
      exact Nat.mod_eq_of_lt (by omega)
    refine ⟨out ++ [Out.slotsLeft ((15 + SIZE_MOD - calls.length) % SIZE_MOD)], ?_⟩
    rw [ho]
    simp only [hsz]
    simp

theorem bookConference_numbers_increase_witness :
    ∃ room disk1 assigned,
      bookAll ConferenceRoom.fresh emptyDisk (kickoffCalls 15) = some (room, disk1, assigned) ∧
      assigned.length = (kickoffCalls 15).length ∧
      List.Chain' (fun a b => strLess a b = true) assigned ∧
      room.conferences.length = (kickoffCalls 15).length ∧
      ∀ heap : Heap, (∀ call ∈ kickoffCalls 15, (heap call.2).isSome = true) →
        ∃ out, displayConferences heap room =
          some (out ++ [Out.slotsBooked (kickoffCalls 15).length]) :=
  bookConference_numbers_increase (kickoffCalls 15) emptyDisk (by decide) (by decide)

theorem advanceRoomNumber_of_length (s : Str) (h : 2 ≤ s.length) :
    ∃ rn, advanceRoomNumber s = some rn := by
  match s, h with
  | c0 :: c1 :: rest, _ =>
    unfold advanceRoomNumber
    by_cases hc : charToInt (charIncr c1) > charToInt '9'
    · exact ⟨charIncr c0 :: '1' :: rest, by simp only [hc, if_true]⟩
    · exact ⟨c0 :: charIncr c1 :: rest, by simp only [hc, if_false]⟩

set_option maxRecDepth 100000 in
/-- C2, as the code has it: the sixteenth booking on a fresh room is not
refused. On the concrete run of sixteen bookings of `kickoff` the sixteenth
call returns normally, prints only its thanks, the list has 16 entries,
`lastRoomNumber` moves from `D6` to `D7` and the file grows by one record. -/
theorem sixteenth_booking_not_refused :
    (bookAll ConferenceRoom.fresh emptyDisk (kickoffCalls 15)).map
        (fun r => (r.1.conferences.length, r.1.lastRoomNumber)) = some (15, ['D', '6']) ∧
    ((bookAll ConferenceRoom.fresh emptyDisk (kickoffCalls 15)).bind
        (fun r => bookConference kickoffHeap r.1 0 r.2.1)).map
        (fun r => (r.1.conferences.length, r.1.lastRoomNumber, r.2.2)) =
      some (16, ['D', '7'], [Out.thankYou ['D', '7']]) ∧
    (bookAll ConferenceRoom.fresh emptyDisk (kickoffCalls 15)).bind
        (fun r => (bookConference kickoffHeap r.1 0 r.2.1).map
          (fun r1 => r1.2.1.content ==
            r.2.1.content.map (fun text => text ++ csvLine kickoff ['D', '7']))) =
      some true := by
  refine ⟨by decide, by decide, by decide⟩

/-- C2, amended: `bookConference` has no capacity check. After any 15 bookings
on a fresh room a sixteenth call (on a live object) is accepted like the
others: it returns, printing its thanks (and the write error when the file
cannot be opened), assigns `D7`, the in-memory list gets a sixteenth entry and,
when the file opens for writing, one record is appended to it. -/
theorem sixteenth_booking_accepted (calls : List (Heap × Ptr)) (disk : Disk)
    (heap : Heap) (p : Ptr) (c : Conference)
    (hN : calls.length = 15) (hlive : ∀ call ∈ calls, (call.1 call.2).isSome = true)
    (hp : heap p = some c) :
    ∃ room15 disk15 assigned room16 disk16,
      bookAll ConferenceRoom.fresh disk calls = some (room15, disk15, assigned) ∧
      room15.conferences.length = 15 ∧
      bookConference heap room15 p disk15 =
        some (room16, disk16,
          Out.thankYou ['D', '7'] :: (if disk15.canWrite = false then [Out.errWrite] else [])) ∧
      room16.conferences = room15.conferences ++ [(p, ['D', '7'])] ∧
      room16.lastRoomNumber = ['D', '7'] ∧
      vecSize room16.conferences = 16 ∧
      (disk15.canWrite = true →
        disk16 = { disk15 with
          content := some (disk15.content.getD [] ++ csvLine c ['D', '7']) }) := by
  obtain ⟨disk15, h⟩ := bookAll_fresh calls disk (by omega) hlive
  rw [hN] at h
  have hadv : advanceRoomNumber ((firstRoomNumbers.take 15).getLast?.getD ['C', '0'])
      = some ['D', '7'] := by decide
  have hlen : ((calls.map Prod.snd).zip (firstRoomNumbers.take 15)).length = 15 := by
    simp [List.length_zip, hN, firstRoomNumbers]
  have hb := bookConference_live
    { conferences := (calls.map Prod.snd).zip (firstRoomNumbers.take 15),
      lastRoomNumber := (firstRoomNumbers.take 15).getLast?.getD ['C', '0'] } disk15 hp hadv
  refine ⟨_, disk15, _, _, _, h, hlen, hb, rfl, rfl, ?_, ?_⟩
  · unfold vecSize SIZE_MOD
    rw [List.length_append, hlen]
    rfl
  · intro hw
    simp [hw]

theorem sixteenth_booking_accepted_witness :
    ∃ room15 disk15 assigned room16 disk16,
      bookAll ConferenceRoom.fresh emptyDisk (kickoffCalls 15) =
        some (room15, disk15, assigned) ∧
      room15.conferences.length = 15 ∧
      bookConference kickoffHeap room15 0 disk15 =
        some (room16, disk16,
          Out.thankYou ['D', '7'] :: (if disk15.canWrite = false then [Out.errWrite] else [])) ∧
      room16.conferences = room15.conferences ++ [(0, ['D', '7'])] ∧
      room16.lastRoomNumber = ['D', '7'] ∧
      vecSize room16.conferences = 16 ∧
      (disk15.canWrite = true →
        disk16 = { disk15 with
          content := some (disk15.content.getD [] ++ csvLine kickoff ['D', '7']) }) :=
  sixteenth_booking_accepted (kickoffCalls 15) emptyDisk kickoffHeap 0 kickoff
    (by decide) (by decide) (by decide)

/-- C3, as the code has it: the tenth booking on a fresh room is assigned
`D1`, which is not the letter `C` followed by a number from 1 to 15. -/
theorem tenth_room_number_not_C :
    (bookAll ConferenceRoom.fresh emptyDisk (kickoffCalls 10)).map (fun r => r.2.2) =
      some [['C', '1'], ['C', '2'], ['C', '3'], ['C', '4'], ['C', '5'], ['C', '6'],
            ['C', '7'], ['C', '8'], ['C', '9'], ['D', '1']] ∧
    isCSlot ['D', '1'] = false := by
  refine ⟨by decide, by decide⟩

/-- C3, amended: over the first 15 bookings on a fresh room every room number
assigned is one letter, `C` or `D`, followed by one decimal digit from 1 to 9;
those of the first nine bookings are the letter `C` followed by a number from
1 to 15. -/
theorem room_numbers_letter_digit (calls : List (Heap × Ptr)) (disk : Disk)
    (hN : calls.length ≤ 15) (hlive : ∀ call ∈ calls, (call.1 call.2).isSome = true) :
    ∃ room disk1 assigned,
      bookAll ConferenceRoom.fresh disk calls = some (room, disk1, assigned) ∧
      assigned.length = calls.length ∧
      (∀ rn ∈ assigned, isLetterDigitSlot rn = true) ∧
      (∀ rn ∈ assigned.take 9, isCSlot rn = true) := by
  obtain ⟨disk1, h⟩ := bookAll_fresh calls disk (by omega) hlive
  refine ⟨_, disk1, _, h, firstRoomNumbers_take_length _ (by omega), ?_, ?_⟩
  · intro rn hrn
    have hall : ∀ x ∈ firstRoomNumbers, isLetterDigitSlot x = true := by decide
    exact hall rn (List.mem_of_mem_take hrn)
  · intro rn hrn
    have hall : ∀ x ∈ firstRoomNumbers.take 9, isCSlot x = true := by decide
    rw [List.take_take] at hrn
    have hsub : rn ∈ (firstRoomNumbers.take 9).take calls.length := by
      rw [List.take_take, Nat.min_comm]; exact hrn
    exact hall rn (List.mem_of_mem_take hsub)

theorem room_numbers_letter_digit_witness :
    ∃ room disk1 assigned,
      bookAll ConferenceRoom.fresh emptyDisk (kickoffCalls 15) = some (room, disk1, assigned) ∧
      assigned.length = (kickoffCalls 15).length ∧
      (∀ rn ∈ assigned, isLetterDigitSlot rn = true) ∧
      (∀ rn ∈ assigned.take 9, isCSlot rn = true) :=
  room_numbers_letter_digit (kickoffCalls 15) emptyDisk (by decide) (by decide)

/-- C9: from a fresh room the `k`-th booking is assigned `C` followed by the
digit `k` for `k` from 1 to 9 (the first `C1`, the second `C2`), and `D`
followed by the digit `k - 9` for `k` from 10 to 15. -/
theorem kth_room_number (calls : List (Heap × Ptr)) (disk : Disk)
    (hN : calls.length ≤ 15) (hlive : ∀ call ∈ calls, (call.1 call.2).isSome = true) :
    ∃ room disk1 assigned,
      bookAll ConferenceRoom.fresh disk calls = some (room, disk1, assigned) ∧
      assigned.length = calls.length ∧
      ∀ k, 1 ≤ k → k ≤ calls.length →
        assigned[k - 1]? =
          some (if k ≤ 9 then ['C', digitChar k] else ['D', digitChar (k - 9)]) := by
  obtain ⟨disk1, h⟩ := bookAll_fresh calls disk (by omega) hlive
  refine ⟨_, disk1, _, h, firstRoomNumbers_take_length _ (by omega), ?_⟩
  intro k hk1 hk2
  rw [List.getElem?_take_of_lt (by omega)]
  have hk : k ≤ 15 := by omega
  interval_cases k <;> decide

theorem kth_room_number_witness :
    ∃ room disk1 assigned,
      bookAll ConferenceRoom.fresh emptyDisk (kickoffCalls 15) = some (room, disk1, assigned) ∧
      assigned.length = (kickoffCalls 15).length ∧
      ∀ k, 1 ≤ k → k ≤ (kickoffCalls 15).length →
        assigned[k - 1]? =
          some (if k ≤ 9 then ['C', digitChar k] else ['D', digitChar (k - 9)]) :=
  kth_room_number (kickoffCalls 15) emptyDisk (by decide) (by decide)

/-- C5: when `conferences.csv` cannot be opened for writing, `bookConference`
still advances `lastRoomNumber` and appends the booking: it returns the same
room as with a file that opens, the file is left as it was, and the failure
only shows as the message printed after the thanks. -/
theorem bookConference_write_failure (heap : Heap) (room : ConferenceRoom) (p : Ptr)
    (c : Conference) (disk diskW : Disk)
    (hlen : 2 ≤ room.lastRoomNumber.length) (hp : heap p = some c)
    (hfail : disk.canWrite = false) (hok : diskW.canWrite = true) :
    ∃ rn, advanceRoomNumber room.lastRoomNumber = some rn ∧
      bookConference heap room p disk =
        some ({ conferences := room.conferences ++ [(p, rn)], lastRoomNumber := rn }, disk,
              [Out.thankYou rn, Out.errWrite]) ∧
      bookConference heap room p diskW =
        some ({ conferences := room.conferences ++ [(p, rn)], lastRoomNumber := rn },
              { diskW with content := some (diskW.content.getD [] ++ csvLine c rn) },
              [Out.thankYou rn]) := by
  obtain ⟨rn, hrn⟩ := advanceRoomNumber_of_length _ hlen
  refine ⟨rn, hrn, ?_, ?_⟩
  · rw [bookConference_live room disk hp hrn]; simp [hfail]
  · rw [bookConference_live room diskW hp hrn]; simp [hok]

theorem bookConference_write_failure_witness :
    ∃ rn, advanceRoomNumber ConferenceRoom.fresh.lastRoomNumber = some rn ∧
      bookConference kickoffHeap ConferenceRoom.fresh 0 lockedDisk =
        some ({ conferences := ConferenceRoom.fresh.conferences ++ [(0, rn)],
                lastRoomNumber := rn }, lockedDisk,
              [Out.thankYou rn, Out.errWrite]) ∧
      bookConference kickoffHeap ConferenceRoom.fresh 0 emptyDisk =
        some ({ conferences := ConferenceRoom.fresh.conferences ++ [(0, rn)],
                lastRoomNumber := rn },
              { emptyDisk with content := some (emptyDisk.content.getD [] ++ csvLine kickoff rn) },
              [Out.thankYou rn]) :=
  bookConference_write_failure kickoffHeap ConferenceRoom.fresh 0 kickoff lockedDisk emptyDisk
    (by decide) (by decide) (by decide) (by decide)

/-- C6, at the input where the code departs from it: after sixteen bookings on
a fresh room `displayConferences` prints "Slots booked: 16" and, the
subtraction being done in `size_t`, "Slots left: 18446744073709551615", which
is not the integer 15 - 16. -/
theorem slots_left_wraps_after_sixteen :
    ((bookAll ConferenceRoom.fresh emptyDisk (kickoffCalls 16)).bind
        (fun r => displayConferences kickoffHeap r.1)).map (fun out => out.drop 17) =
      some [Out.slotsLeft 18446744073709551615, Out.slotsBooked 16] ∧
    ((18446744073709551615 : Nat) : Int) ≠ 15 - 16 := by
  refine ⟨by decide, by decide⟩

/-! ## Reading the file: `getline` and the pieces of a line -/

theorem extractUntil_some_splitOn (d : Char) (s : Str) :
    ∀ p r, extractUntil d s = (p, some r) → s.splitOn d = p :: r.splitOn d := by
  induction s with
  | nil => intro p r h; simp [extractUntil] at h
  | cons c cs ih =>
    intro p r h
    unfold extractUntil at h
    by_cases hc : c = d
    · simp only [hc, if_true, Prod.mk.injEq, Option.some.injEq] at h
      obtain ⟨h1, h2⟩ := h
      subst h1 h2
      simp [List.splitOn, hc]
    · simp only [hc, if_false, Prod.mk.injEq] at h
      obtain ⟨h1, h2⟩ := h
      have := ih (extractUntil d cs).1 r (by rw [← h2])
      simp only [List.splitOn] at this ⊢
      rw [List.splitOnP_cons]
      simp only [beq_iff_eq, hc, if_false, this, List.modifyHead, ← h1]

theorem extractUntil_none_splitOn (d : Char) (s : Str) :
    ∀ p, extractUntil d s = (p, none) → s.splitOn d = [p] := by
  induction s with
  | nil => intro p h; simp [extractUntil] at h; subst h; rfl
  | cons c cs ih =>
    intro p h
    unfold extractUntil at h
    by_cases hc : c = d
    · simp [hc] at h
    · simp only [hc, if_false, Prod.mk.injEq] at h
      obtain ⟨h1, h2⟩ := h
      have := ih (extractUntil d cs).1 (by rw [← h2])
      simp only [List.splitOn] at this ⊢
      rw [List.splitOnP_cons]
      simp only [beq_iff_eq, hc, if_false, this, List.modifyHead, ← h1]

/-- A `getline` on a stream that is not good leaves the string and the rest of
the stream as they are and sets `failbit`. -/
theorem getline_not_good (is : IStream) (str : Str) (d : Char) (h : is.good = false) :
    getline is str d = ({ is with failbit := true }, str) := by
  simp [getline, h]

theorem getline_open_some (text str : Str) (d : Char) (p r : Str)
    (h : extractUntil d text = (p, some r)) :
    getline (IStream.open text) str d = (IStream.open r, p) := by
  simp [getline, IStream.open, IStream.good, h]

theorem getline_open_none (text str : Str) (d : Char) (p : Str)
    (h : extractUntil d text = (p, none)) :
    getline (IStream.open text) str d =
      ({ buf := [], eofbit := true, failbit := p.isEmpty }, p) := by
  simp [getline, IStream.open, IStream.good, h]

theorem getline_eof (f : Bool) (d : Char) :
    getline { buf := [], eofbit := true, failbit := f } [] d =
      ({ buf := [], eofbit := true, failbit := true }, []) := by
  simp [getline, IStream.good]

theorem extractUntil_not_mem (d : Char) (s : Str) (h : d ∉ s) :
    extractUntil d s = (s, none) := by
  induction s with
  | nil => rfl
  | cons c cs ih =>
    have hc : c ≠ d := fun e => h (by simp [e])
    have hcs : d ∉ cs := fun e => h (List.mem_cons_of_mem _ e)
    simp [extractUntil, hc, ih hcs]

theorem extractUntil_append (d : Char) (s t : Str) (h : d ∉ s) :
    extractUntil d (s ++ d :: t) = (s, some t) := by
  induction s with
  | nil => simp [extractUntil]
  | cons c cs ih =>
    have hc : c ≠ d := fun e => h (by simp [e])
    have hcs : d ∉ cs := fun e => h (List.mem_cons_of_mem _ e)
    simp [extractUntil, hc, ih hcs]

/-- A text that contains the delimiter splits at its first occurrence. -/
theorem exists_first_delim (d : Char) (s : Str) (h : d ∈ s) :
    ∃ p r, d ∉ p ∧ s = p ++ d :: r := by
  induction s with
  | nil => simp at h
  | cons c cs ih =>
    by_cases hc : c = d
    · exact ⟨[], cs, by simp, by simp [hc]⟩
    · have hcs : d ∈ cs := by
        rcases List.mem_cons.mp h with e | e
        · exact absurd e.symm hc
        · exact e
      obtain ⟨p, r, hp, hs⟩ := ih hcs
      refine ⟨c :: p, r, ?_, by simp [hs]⟩
      intro hm
      rcases List.mem_cons.mp hm with e | e
      · exact hc e.symm
      · exact hp e

theorem readLoop_nil (fuel : Nat) (carry : Str) :
    readLoop (fuel + 1) (IStream.open []) carry = some [] := by
  simp [readLoop, getline, IStream.open, IStream.good, extractUntil]

theorem readLoop_line (fuel : Nat) (carry p r : Str) (hp : '\n' ∉ p) :
    readLoop (fuel + 1) (IStream.open (p ++ '\n' :: r)) carry =
      match readLoop fuel (IStream.open r) p with
      | none => none
      | some out => some (parseLine p :: out) := by
  rw [readLoop]
  simp only [getline_open_some _ carry _ _ _ (extractUntil_append '\n' p r hp)]
  simp [IStream.open]

/-- What the reading loop yields on a text made of complete lines, and on the
same text with one more line: the same records followed by that line's. The
loop ends within the bound used by `displayAllConferencesFromFile`. -/
theorem readLoop_append_line (line : Str) (hline : '\n' ∉ line) :
    ∀ (fuel : Nat) (text carry : Str), text.length < fuel →
      (text = [] ∨ text.getLast? = some '\n') →
      ∃ out, readLoop fuel (IStream.open text) carry = some out ∧
        ∀ (fuel2 : Nat) , (text ++ line ++ ['\n']).length < fuel2 →
          readLoop fuel2 (IStream.open (text ++ line ++ ['\n'])) carry =
            some (out ++ [parseLine line]) := by
  intro fuel
  induction fuel with
  | zero => intro text carry h; omega
  | succ fuel ih =>
    intro text carry hlen hend
    by_cases hnil : text = []
    · subst hnil
      refine ⟨[], readLoop_nil fuel carry, ?_⟩
      intro fuel2 h2
      simp only [List.nil_append, List.length_append, List.length_singleton] at h2
      obtain ⟨k, rfl⟩ : ∃ k, fuel2 = k + 2 := ⟨fuel2 - 2, by omega⟩
      have : ([] : Str) ++ line ++ ['\n'] = line ++ '\n' :: [] := by simp
      rw [this, readLoop_line (k + 1) carry line [] hline, readLoop_nil]
      rfl
    · have hlast : text.getLast? = some '\n' := by
        rcases hend with h | h
        · exact absurd h hnil
        · exact h
      have hmem : '\n' ∈ text := List.mem_of_getLast?_eq_some hlast
      obtain ⟨p, r, hp, hs⟩ := exists_first_delim '\n' text hmem
      subst hs
      have hr : r = [] ∨ r.getLast? = some '\n' := by
        by_cases hrn : r = []
        · exact Or.inl hrn
        · right
          have : (p ++ '\n' :: r).getLast? = r.getLast? := by
            cases r with
            | nil => exact absurd rfl hrn
            | cons a t =>
              have e2 : p ++ '\n' :: a :: t = (p ++ ['\n']) ++ (a :: t) := by simp
              rw [e2, List.getLast?_append_of_ne_nil _ (List.cons_ne_nil a t)]
          rw [← this]; exact hlast
      have hrlen : r.length < fuel := by
        simp only [List.length_append, List.length_cons] at hlen
        omega
      obtain ⟨out, ho, hnext⟩ := ih r p hrlen hr
      refine ⟨parseLine p :: out, by rw [readLoop_line fuel carry p r hp, ho], ?_⟩
      intro fuel2 h2
      obtain ⟨k, rfl⟩ : ∃ k, fuel2 = k + 1 := ⟨fuel2 - 1, by omega⟩
      have e : p ++ '\n' :: r ++ line ++ ['\n'] = p ++ '\n' :: (r ++ line ++ ['\n']) := by simp
      rw [e, readLoop_line k carry p _ hp, hnext k (by
        simp only [List.length_append, List.length_cons, List.length_singleton,
          List.length_nil] at h2 ⊢
        omega)]
      rfl

theorem parseLine_pieces (line : Str) :
    parseLine line =
      Out.entry (commaPiece line 0) (commaPiece line 1) (commaPiece line 2)
        (commaPiece line 3) (commaPiece line 4) := by
  unfold parseLine commaPiece
  dsimp only
  rcases h1 : extractUntil ',' line with ⟨p1, _ | r1⟩
  · simp [getline_open_none _ _ _ _ h1, getline_eof, extractUntil_none_splitOn _ _ _ h1]
  rw [extractUntil_some_splitOn _ _ _ _ h1]
  simp only [getline_open_some _ _ _ _ _ h1]
  rcases h2 : extractUntil ',' r1 with ⟨p2, _ | r2⟩
  · simp [getline_open_none _ _ _ _ h2, getline_eof, extractUntil_none_splitOn _ _ _ h2]
  rw [extractUntil_some_splitOn _ _ _ _ h2]
  simp only [getline_open_some _ _ _ _ _ h2]
  rcases h3 : extractUntil ',' r2 with ⟨p3, _ | r3⟩
  · simp [getline_open_none _ _ _ _ h3, getline_eof, extractUntil_none_splitOn _ _ _ h3]
  rw [extractUntil_some_splitOn _ _ _ _ h3]
  simp only [getline_open_some _ _ _ _ _ h3]
  rcases h4 : extractUntil ',' r3 with ⟨p4, _ | r4⟩
  · simp [getline_open_none _ _ _ _ h4, getline_eof, extractUntil_none_splitOn _ _ _ h4]
  rw [extractUntil_some_splitOn _ _ _ _ h4]
  simp only [getline_open_some _ _ _ _ _ h4]
  rcases h5 : extractUntil ',' r4 with ⟨p5, _ | r5⟩
  · simp [getline_open_none _ _ _ _ h5, extractUntil_none_splitOn _ _ _ h5]
  rw [extractUntil_some_splitOn _ _ _ _ h5]
  simp [getline_open_some _ _ _ _ _ h5]

theorem parseLine_five (f1 f2 f3 f4 f5 : Str) (h1 : ',' ∉ f1) (h2 : ',' ∉ f2) (h3 : ',' ∉ f3)
    (h4 : ',' ∉ f4) (h5 : ',' ∉ f5) :
    parseLine (f1 ++ ',' :: (f2 ++ ',' :: (f3 ++ ',' :: (f4 ++ ',' :: f5)))) =
      Out.entry f1 f2 f3 f4 f5 := by
  unfold parseLine
  dsimp only
  simp only [getline_open_some _ _ _ _ _ (extractUntil_append ',' f1 _ h1),
    getline_open_some _ _ _ _ _ (extractUntil_append ',' f2 _ h2),
    getline_open_some _ _ _ _ _ (extractUntil_append ',' f3 _ h3),
    getline_open_some _ _ _ _ _ (extractUntil_append ',' f4 _ h4),
    getline_open_none _ _ _ _ (extractUntil_not_mem ',' f5 h5)]

theorem readLoop_at_eof (fuel : Nat) (carry : Str) :
    readLoop (fuel + 1) { buf := [], eofbit := true, failbit := false } carry = some [] := by
  simp [readLoop, getline, IStream.good]

/-- The reading loop ends within as many iterations as the text has characters,
plus one. -/
theorem readLoop_total :
    ∀ (fuel : Nat) (text carry : Str), text.length < fuel →
      ∃ out, readLoop fuel (IStream.open text) carry = some out := by
  intro fuel
  induction fuel with
  | zero => intro text carry h; omega
  | succ fuel ih =>
    intro text carry hlen
    by_cases hnil : text = []
    · subst hnil
      exact ⟨[], readLoop_nil fuel carry⟩
    · by_cases hmem : '\n' ∈ text
      · obtain ⟨p, r, hp, hs⟩ := exists_first_delim '\n' text hmem
        subst hs
        have hrlen : r.length < fuel := by
          simp only [List.length_append, List.length_cons] at hlen
          omega
        obtain ⟨out, ho⟩ := ih r p hrlen
        exact ⟨parseLine p :: out, by rw [readLoop_line fuel carry p r hp, ho]⟩
      · have hpos : 0 < text.length := List.length_pos.mpr hnil
        obtain ⟨k, rfl⟩ : ∃ k, fuel = k + 1 := ⟨fuel - 1, by omega⟩
        have he : text.isEmpty = false := by
          cases text with
          | nil => exact absurd rfl hnil
          | cons a t => rfl
        refine ⟨[parseLine text], ?_⟩
        rw [readLoop]
        simp only [getline_open_none _ carry _ _ (extractUntil_not_mem '\n' text hmem), he]
        rw [readLoop_at_eof]
        rfl

/-- `displayAllConferencesFromFile` always returns: its bound is never reached. -/
theorem displayAllConferencesFromFile_total (disk : Disk) :
    ∃ out, displayAllConferencesFromFile disk = some out := by
  unfold displayAllConferencesFromFile
  cases disk.content with
  | none => exact ⟨_, rfl⟩
  | some text =>
    by_cases hr : disk.canRead = false
    · exact ⟨[Out.errRead], by simp [hr]⟩
    · obtain ⟨out, ho⟩ := readLoop_total (text.length + 1) text [] (by omega)
      exact ⟨out, by simp [hr, ho]⟩

theorem splitOn_ne_nil (d : Char) (s : Str) : s.splitOn d ≠ [] := by
  unfold List.splitOn
  exact List.splitOnP_ne_nil _ _

theorem fileLines_nil : fileLines [] = [] := by
  simp [fileLines]

theorem fileLines_line (p r : Str) (hp : '\n' ∉ p) :
    fileLines (p ++ '\n' :: r) = p :: fileLines r := by
  have hs : (p ++ '\n' :: r).splitOn '\n' = p :: r.splitOn '\n' :=
    extractUntil_some_splitOn '\n' _ p r (extractUntil_append '\n' p r hp)
  unfold fileLines
  rw [hs]
  cases hq : r.splitOn '\n' with
  | nil => exact absurd hq (splitOn_ne_nil '\n' r)
  | cons a t =>
    rw [List.getLast?_cons_cons, List.dropLast_cons₂]
    by_cases hl : (a :: t).getLast? = some []
    · simp [hl]
    · simp [hl]

theorem fileLines_last (text : Str) (hne : text ≠ []) (hmem : '\n' ∉ text) :
    fileLines text = [text] := by
  have hs : text.splitOn '\n' = [text] :=
    extractUntil_none_splitOn '\n' text text (extractUntil_not_mem '\n' text hmem)
  unfold fileLines
  rw [hs]
  simp [hne]

/-- The reading loop prints, in order, one record per line of the text. -/
theorem readLoop_fileLines :
    ∀ (fuel : Nat) (text carry : Str), text.length < fuel →
      readLoop fuel (IStream.open text) carry = some ((fileLines text).map parseLine) := by
  intro fuel
  induction fuel with
  | zero => intro text carry h; omega
  | succ fuel ih =>
    intro text carry hlen
    by_cases hnil : text = []
    · subst hnil
      rw [readLoop_nil, fileLines_nil]
      rfl
    · by_cases hmem : '\n' ∈ text
      · obtain ⟨p, r, hp, hs⟩ := exists_first_delim '\n' text hmem
        subst hs
        have hrlen : r.length < fuel := by
          simp only [List.length_append, List.length_cons] at hlen
          omega
        rw [readLoop_line fuel carry p r hp, ih r p hrlen, fileLines_line p r hp]
        rfl
      · have hpos : 0 < text.length := List.length_pos.mpr hnil
        obtain ⟨k, rfl⟩ : ∃ k, fuel = k + 1 := ⟨fuel - 1, by omega⟩
        have he : text.isEmpty = false := by
          cases text with
          | nil => exact absurd rfl hnil
          | cons a t => rfl
        rw [fileLines_last text hnil hmem, readLoop]
        simp only [getline_open_none _ carry _ _ (extractUntil_not_mem '\n' text hmem), he]
        rw [readLoop_at_eof]
        rfl

/-- C7: on a file that opens for reading, `displayAllConferencesFromFile`
prints exactly one record per line of the file, in order, and the record of a
line has as its five fields (name, anchor, time, date, room number) the first
five comma-separated pieces of the line, with the empty string where the line
has fewer pieces; pieces after the fifth are ignored. The loop body alone,
`parseLine`, does this on every line. -/
theorem displayAllConferencesFromFile_records (text : Str) (canWrite : Bool) :
    displayAllConferencesFromFile { content := some text, canRead := true, canWrite := canWrite } =
      some ((fileLines text).map recordOfPieces) ∧
    ∀ line : Str,
      parseLine line =
        Out.entry (commaPiece line 0) (commaPiece line 1) (commaPiece line 2)
          (commaPiece line 3) (commaPiece line 4) := by
  refine ⟨?_, parseLine_pieces⟩
  have hfun : parseLine = recordOfPieces := by
    funext line
    rw [parseLine_pieces line]
    rfl
  simp only [displayAllConferencesFromFile, Bool.true_eq_false, if_false]
  rw [readLoop_fileLines (text.length + 1) text [] (by omega), hfun]

/-- C4: on a file whose text is empty or ends with a newline, for a booking
whose five fields have no comma and no newline, what
`displayAllConferencesFromFile` reads after `saveConferenceToCSV` has appended
the booking is what it read before followed by exactly one more record, whose
five fields are the booking's name, anchor, time, date and room number. -/
theorem csv_append_then_read (heap : Heap) (p : Ptr) (c : Conference) (roomNumber text : Str)
    (hp : heap p = some c) (htext : text = [] ∨ text.getLast? = some '\n')
    (hname : plainField c.name) (hanchor : plainField c.anchor) (htime : plainField c.time)
    (hdate : plainField c.date) (hroom : plainField roomNumber) :
    ∃ before,
      displayAllConferencesFromFile (Disk.ofText text) = some before ∧
      saveConferenceToCSV heap p roomNumber (Disk.ofText text) =
        some (Disk.ofText (text ++ csvLine c roomNumber), []) ∧
      displayAllConferencesFromFile (Disk.ofText (text ++ csvLine c roomNumber)) =
        some (before ++ [Out.entry c.name c.anchor c.time c.date roomNumber]) := by
  have hline : '\n' ∉ c.name ++ ',' :: (c.anchor ++ ',' :: (c.time ++ ',' ::
      (c.date ++ ',' :: roomNumber))) := by
    have hc : '\n' ≠ ',' := by decide
    simp [hname.2, hanchor.2, htime.2, hdate.2, hroom.2, hc]
  have hcsv : text ++ csvLine c roomNumber =
      text ++ (c.name ++ ',' :: (c.anchor ++ ',' :: (c.time ++ ',' ::
        (c.date ++ ',' :: roomNumber)))) ++ ['\n'] := by
    simp [csvLine]
  obtain ⟨before, hb, hafter⟩ :=
    readLoop_append_line _ hline (text.length + 1) text [] (by omega) htext
  refine ⟨before, ?_, ?_, ?_⟩
  · simpa [displayAllConferencesFromFile, Disk.ofText] using hb
  · simp [saveConferenceToCSV, Disk.ofText, hp]
  · have h := hafter ((text ++ csvLine c roomNumber).length + 1) (by rw [hcsv]; omega)
    rw [parseLine_five _ _ _ _ _ hname.1 hanchor.1 htime.1 hdate.1 hroom.1, ← hcsv] at h
    simpa [displayAllConferencesFromFile, Disk.ofText] using h

theorem csv_append_then_read_witness :
    ∃ before,
      displayAllConferencesFromFile (Disk.ofText (csvLine kickoff ['C', '1'])) = some before ∧
      saveConferenceToCSV kickoffHeap 0 ['C', '2'] (Disk.ofText (csvLine kickoff ['C', '1'])) =
        some (Disk.ofText (csvLine kickoff ['C', '1'] ++ csvLine kickoff ['C', '2']), []) ∧
      displayAllConferencesFromFile
          (Disk.ofText (csvLine kickoff ['C', '1'] ++ csvLine kickoff ['C', '2'])) =
        some (before ++
          [Out.entry kickoff.name kickoff.anchor kickoff.time kickoff.date ['C', '2']]) :=
  csv_append_then_read kickoffHeap 0 kickoff ['C', '2'] (csvLine kickoff ['C', '1'])
    (by decide) (Or.inr (by decide)) (by unfold plainField; decide)
    (by unfold plainField; decide) (by unfold plainField; decide)
    (by unfold plainField; decide) (by unfold plainField; decide)

/-! ## The stored pointers across passes of the loop of `main` -/

theorem heap_store_same (h : Heap) (a : Ptr) (v : Option Conference) : (h.store a v) a = v := by
  simp [Heap.store]

theorem heap_store_other (h : Heap) (a b : Ptr) (v : Option Conference) (hab : b ≠ a) :
    (h.store a v) b = h b := by
  simp [Heap.store, hab]

/-- C8, at the input where the code departs from it: `main` books `kickoff`,
then a second conference. The list keeps the address of the first pass's local
object, which is destroyed at the end of that pass. During the second pass
`displayConferences` shows, for the entry of room `C1`, the second conference
when the new local object is at the same address, and otherwise dereferences a
destroyed object; in no case does it show `kickoff` for `C1` again. -/
theorem first_booking_not_kept (a1 a2 : Ptr) :
    (mainLoop exampleToday (fun _ => none) ConferenceRoom.fresh emptyDisk
        [kickoffRequest a1, reviewRequest a2]).map (fun r => shownBookings r.2.2) =
      if a1 = a2 then
        some [("Kickoff".toList, ['C', '1']), ("Review".toList, ['C', '1']),
              ("Review".toList, ['C', '2'])]
      else none := by
  have hk : isConferenceToday exampleToday
      ['0', '5', '/', '0', '1', '/', '2', '0', '2', '5'] = some false := by decide
  have hr : isConferenceToday exampleToday
      ['0', '6', '/', '0', '1', '/', '2', '0', '2', '5'] = some false := by decide
  have hadv1 : advanceRoomNumber ['C', '0'] = some ['C', '1'] := by decide
  have hadv2 : advanceRoomNumber ['C', '1'] = some ['C', '2'] := by decide
  by_cases h : a1 = a2
  · subst h
    simp [mainLoop, kickoffRequest, reviewRequest, bookConference, saveConferenceToCSV,
      displayConferences, displayEntries, ConferenceRoom.fresh, emptyDisk, hk, hr, hadv1, hadv2,
      heap_store_same, shownBookings, getLastBookedRoomNumber, kickoff]
  · have h21 : a1 ≠ a2 := h
    simp [mainLoop, kickoffRequest, reviewRequest, bookConference, saveConferenceToCSV,
      displayConferences, displayEntries, ConferenceRoom.fresh, emptyDisk, hk, hr, hadv1, hadv2,
      heap_store_same, heap_store_other _ _ _ _ h21, getLastBookedRoomNumber, h, kickoff]

/-! ## Dates: the strings `validateDate` accepts and how they are read -/

theorem mem_run_set (p : Char → Bool) (s t : Str) :
    t ∈ (Rx.set p).run s ↔ ∃ c, s = c :: t ∧ p c = true := by
  cases s with
  | nil => simp [Rx.run]
  | cons c cs =>
    by_cases h : p c = true
    · simp only [Rx.run, h, if_true, List.mem_singleton]
      constructor
      · intro e; exact ⟨c, by rw [e], h⟩
      · rintro ⟨c1, e, _⟩
        simp only [List.cons.injEq] at e
        exact e.2.symm
    · simp only [Rx.run, h, Bool.false_eq_true, if_false, List.not_mem_nil, false_iff]
      rintro ⟨c1, e, h1⟩
      simp only [List.cons.injEq] at e
      rw [← e.1] at h1
      exact h h1

theorem mem_run_seq (a b : Rx) (s t : Str) :
    t ∈ (Rx.seq a b).run s ↔ ∃ u, u ∈ a.run s ∧ t ∈ b.run u := by
  simp [Rx.run, List.mem_flatMap]

theorem mem_run_alt (a b : Rx) (s t : Str) :
    t ∈ (Rx.alt a b).run s ↔ t ∈ a.run s ∨ t ∈ b.run s := by
  simp [Rx.run]

theorem regex_match_iff (s : Str) (r : Rx) : regex_match s r = true ↔ [] ∈ r.run s := by
  simp only [regex_match, List.any_eq_true, List.isEmpty_iff]
  constructor
  · rintro ⟨t, ht, e⟩; rw [← e]; exact ht
  · intro h; exact ⟨[], h, rfl⟩

theorem isDigit_of_range (lo hi c : Char) (hlo : '0'.toNat ≤ lo.toNat) (hhi : hi.toNat ≤ '9'.toNat)
    (h : (decide (lo.toNat ≤ c.toNat) && decide (c.toNat ≤ hi.toNat)) = true) :
    isDigit c = true := by
  simp only [Bool.and_eq_true, decide_eq_true_eq] at h
  simp only [isDigit, Bool.and_eq_true, decide_eq_true_eq]
  omega

/-- Two characters matched by a pair of classes that only hold digits. -/
theorem run_two_digits (p q : Char → Bool) (hp : ∀ c, p c = true → isDigit c = true)
    (hq : ∀ c, q c = true → isDigit c = true) (s t : Str)
    (h : t ∈ (Rx.seq (Rx.set p) (Rx.set q)).run s) :
    ∃ a b, s = a :: b :: t ∧ isDigit a = true ∧ isDigit b = true := by
  rw [mem_run_seq] at h
  obtain ⟨u, hu, ht⟩ := h
  rw [mem_run_set] at hu ht
  obtain ⟨a, ea, ha⟩ := hu
  obtain ⟨b, eb, hb⟩ := ht
  exact ⟨a, b, by rw [ea, eb], hp a ha, hq b hb⟩

theorem run_slash (s t : Str) (h : t ∈ (Rx.chr '/').run s) : s = '/' :: t := by
  unfold Rx.chr at h
  rw [mem_run_set] at h
  obtain ⟨c, e, hc⟩ := h
  simp only [decide_eq_true_eq] at hc
  rw [e, hc]

theorem chr_digit (d : Char) (hd : isDigit d = true) :
    ∀ c, (fun x => decide (x = d)) c = true → isDigit c = true := by
  intro c h
  simp only [decide_eq_true_eq] at h
  rw [h]; exact hd

theorem oneOf_digit (d e : Char) (hd : isDigit d = true) (he : isDigit e = true) :
    ∀ c, (fun x => decide (x = d) || decide (x = e)) c = true → isDigit c = true := by
  intro c h
  simp only [Bool.or_eq_true, decide_eq_true_eq] at h
  rcases h with h | h <;> rw [h] <;> assumption

theorem range_digit (lo hi : Char) (hlo : '0'.toNat ≤ lo.toNat) (hhi : hi.toNat ≤ '9'.toNat) :
    ∀ c, (fun x => decide (lo.toNat ≤ x.toNat) && decide (x.toNat ≤ hi.toNat)) c = true →
      isDigit c = true :=
  fun c h => isDigit_of_range lo hi c hlo hhi h

/-- The shape of the strings `validateDate` accepts: two digits, a slash, two
digits, a slash, four digits. -/
theorem validateDate_shape (date : Str) (h : validateDate date = true) :
    ∃ d1 d2 m1 m2 y1 y2 y3 y4, date = [d1, d2, '/', m1, m2, '/', y1, y2, y3, y4] ∧
      isDigit d1 = true ∧ isDigit d2 = true ∧ isDigit m1 = true ∧ isDigit m2 = true ∧
      isDigit y1 = true ∧ isDigit y2 = true ∧ isDigit y3 = true ∧ isDigit y4 = true := by
  rw [validateDate, regex_match_iff, dateRx, mem_run_seq] at h
  obtain ⟨u1, hday, h⟩ := h
  rw [mem_run_seq] at h
  obtain ⟨u2, hs1, h⟩ := h
  rw [mem_run_seq] at h
  obtain ⟨u3, hmonth, h⟩ := h
  rw [mem_run_seq] at h
  obtain ⟨u4, hs2, h⟩ := h
  rw [mem_run_seq] at h
  obtain ⟨u5, hcent, hyear⟩ := h
  have e1 := run_slash _ _ hs1
  have e2 := run_slash _ _ hs2
  obtain ⟨y3, y4, e5, hy3, hy4⟩ := run_two_digits _ _
    (range_digit '0' '9' (by decide) (by decide)) (range_digit '0' '9' (by decide) (by decide))
    u5 [] hyear
  have hD : ∃ a b, date = a :: b :: u1 ∧ isDigit a = true ∧ isDigit b = true := by
    rw [mem_run_alt, mem_run_alt] at hday
    rcases hday with hd | hd | hd
    · exact run_two_digits _ _ (chr_digit '0' (by decide))
        (range_digit '1' '9' (by decide) (by decide)) _ _ hd
    · exact run_two_digits _ _ (oneOf_digit '1' '2' (by decide) (by decide))
        (range_digit '0' '9' (by decide) (by decide)) _ _ hd
    · exact run_two_digits _ _ (chr_digit '3' (by decide))
        (oneOf_digit '0' '1' (by decide) (by decide)) _ _ hd
  have hM : ∃ a b, u2 = a :: b :: u3 ∧ isDigit a = true ∧ isDigit b = true := by
    rw [mem_run_alt] at hmonth
    rcases hmonth with hd | hd
    · exact run_two_digits _ _ (chr_digit '0' (by decide))
        (range_digit '1' '9' (by decide) (by decide)) _ _ hd
    · exact run_two_digits _ _ (chr_digit '1' (by decide))
        (range_digit '0' '2' (by decide) (by decide)) _ _ hd
  have hC : ∃ a b, u4 = a :: b :: u5 ∧ isDigit a = true ∧ isDigit b = true := by
    rw [mem_run_alt] at hcent
    rcases hcent with hd | hd
    · exact run_two_digits _ _ (chr_digit '1' (by decide)) (chr_digit '9' (by decide)) _ _ hd
    · exact run_two_digits _ _ (chr_digit '2' (by decide)) (chr_digit '0' (by decide)) _ _ hd
  obtain ⟨d1, d2, eD, hd1, hd2⟩ := hD
  obtain ⟨m1, m2, eM, hm1, hm2⟩ := hM
  obtain ⟨y1, y2, eC, hy1, hy2⟩ := hC
  refine ⟨d1, d2, m1, m2, y1, y2, y3, y4, ?_, hd1, hd2, hm1, hm2, hy1, hy2, hy3, hy4⟩
  rw [eD, e1, eM, e2, eC, e5]

theorem isDigit_not_space (c : Char) (h : isDigit c = true) : isSpace c = false := by
  simp only [isSpace, Bool.or_eq_false_iff, decide_eq_false_iff_not]
  refine ⟨⟨⟨⟨⟨?_, ?_⟩, ?_⟩, ?_⟩, ?_⟩, ?_⟩ <;> (intro e; subst e; revert h; decide)

theorem readSign_digit (c : Char) (cs : Str) (h : isDigit c = true) :
    readSign (c :: cs) = (false, c :: cs) := by
  unfold readSign
  split
  · rename_i e; simp only [List.cons.injEq] at e; rw [e.1] at h
    exact absurd h (by decide)
  · rename_i e; simp only [List.cons.injEq] at e; rw [e.1] at h
    exact absurd h (by decide)
  · rfl

theorem sentry_open (c : Char) (cs : Str) (h : isSpace c = false) :
    sentry (IStream.open (c :: cs)) = (IStream.open (c :: cs), true) := by
  simp [sentry, IStream.open, IStream.good, List.dropWhile, h]

theorem digitVal_bounds (c : Char) (h : isDigit c = true) :
    0 ≤ digitVal c ∧ digitVal c ≤ 9 := by
  simp only [isDigit, Bool.and_eq_true, decide_eq_true_eq] at h
  have h0 : '0'.toNat = 48 := by decide
  have h9 : '9'.toNat = 57 := by decide
  unfold digitVal
  omega

theorem not_isDigit_slash : isDigit '/' = false := by decide

theorem not_isSpace_slash : isSpace '/' = false := by decide

theorem extractInt_two (a b : Char) (rest : Str) (ha : isDigit a = true) (hb : isDigit b = true) :
    extractInt (IStream.open (a :: b :: '/' :: rest)) =
      (IStream.open ('/' :: rest), some (10 * digitVal a + digitVal b)) := by
  have hba := digitVal_bounds a ha
  have hbb := digitVal_bounds b hb
  have hv : ((digitsValue [a, b] : Nat) : Int) = 10 * digitVal a + digitVal b := by
    simp [digitsValue, digitVal]
  have h1 : ¬ (10 * digitVal a + digitVal b > INT_MAX) := by unfold INT_MAX; omega
  have h2 : ¬ (10 * digitVal a + digitVal b < INT_MIN) := by unfold INT_MIN; omega
  unfold extractInt
  simp only [sentry_open a _ (isDigit_not_space a ha)]
  simp only [IStream.open, readSign_digit a _ ha, List.takeWhile, List.dropWhile, ha, hb,
    not_isDigit_slash]
  simp [hv, h1, h2]

theorem extractInt_four (a b c d : Char) (ha : isDigit a = true) (hb : isDigit b = true)
    (hc : isDigit c = true) (hd : isDigit d = true) :
    extractInt (IStream.open [a, b, c, d]) =
      ({ buf := [], eofbit := true, failbit := false },
        some (1000 * digitVal a + 100 * digitVal b + 10 * digitVal c + digitVal d)) := by
  have hba := digitVal_bounds a ha
  have hbb := digitVal_bounds b hb
  have hbc := digitVal_bounds c hc
  have hbd := digitVal_bounds d hd
  have hv : ((digitsValue [a, b, c, d] : Nat) : Int) =
      1000 * digitVal a + 100 * digitVal b + 10 * digitVal c + digitVal d := by
    simp [digitsValue, digitVal]
    ring
  have h1 : ¬ (1000 * digitVal a + 100 * digitVal b + 10 * digitVal c + digitVal d > INT_MAX) := by
    unfold INT_MAX; omega
  have h2 : ¬ (1000 * digitVal a + 100 * digitVal b + 10 * digitVal c + digitVal d < INT_MIN) := by
    unfold INT_MIN; omega
  unfold extractInt
  simp only [sentry_open a _ (isDigit_not_space a ha)]
  simp only [IStream.open, readSign_digit a _ ha, List.takeWhile, List.dropWhile, ha, hb, hc, hd]
  simp [hv, h1, h2]

theorem extractChar_slash (rest : Str) :
    extractChar (IStream.open ('/' :: rest)) = (IStream.open rest, some '/') := by
  unfold extractChar
  simp only [sentry_open '/' _ not_isSpace_slash]
  simp [IStream.open]

theorem scanDate_shape (d1 d2 m1 m2 y1 y2 y3 y4 : Char)
    (hd1 : isDigit d1 = true) (hd2 : isDigit d2 = true) (hm1 : isDigit m1 = true)
    (hm2 : isDigit m2 = true) (hy1 : isDigit y1 = true) (hy2 : isDigit y2 = true)
    (hy3 : isDigit y3 = true) (hy4 : isDigit y4 = true) :
    scanDate [d1, d2, '/', m1, m2, '/', y1, y2, y3, y4] =
      (some (10 * digitVal d1 + digitVal d2), some (10 * digitVal m1 + digitVal m2),
       some (1000 * digitVal y1 + 100 * digitVal y2 + 10 * digitVal y3 + digitVal y4)) := by
  unfold scanDate
  simp only [extractInt_two d1 d2 _ hd1 hd2, extractChar_slash, extractInt_two m1 m2 _ hm1 hm2,
    extractInt_four y1 y2 y3 y4 hy1 hy2 hy3 hy4]

theorem past_core (year month day y m d : Int) :
    (if year > y then some true
      else if year = y then
        if month > m then some true
        else if month = m then some (decide (day > d))
        else some false
      else some false) =
    some (decide (y < year) ||
      (decide (y = year) && (decide (m < month) || (decide (m = month) && decide (d < day))))) := by
  by_cases c1 : year > y
  · have : y < year := c1
    simp [c1, this]
  · by_cases c2 : year = y
    · subst c2
      by_cases c3 : month > m
      · have : m < month := c3
        simp [c3, this]
      · by_cases c4 : month = m
        · subst c4
          simp
        · have c5 : ¬ m < month := c3
          have c6 : ¬ m = month := fun e => c4 e.symm
          simp [c3, c4, c5, c6]
    · have c5 : ¬ y < year := c1
      have c6 : ¬ y = year := fun e => c2 e.symm
      simp [c1, c2, c5, c6]

theorem isPastDate_valid (year month day : Int) (date : Str) (h : validateDate date = true) :
    isPastDate (tmOf year month day) date =
      some (calendarBefore (dateDenoted date) (year, month, day)) := by
  obtain ⟨d1, d2, m1, m2, y1, y2, y3, y4, e, hd1, hd2, hm1, hm2, hy1, hy2, hy3, hy4⟩ :=
    validateDate_shape date h
  subst e
  unfold isPastDate
  rw [scanDate_shape d1 d2 m1 m2 y1 y2 y3 y4 hd1 hd2 hm1 hm2 hy1 hy2 hy3 hy4]
  simp only [tmOf, dateDenoted, calendarBefore, sub_add_cancel]
  exact past_core year month day _ _ _

/-- C10: with today's (year, month, day) given, on every string accepted by
`validateDate` the function `isPastDate` returns true exactly when the date
the string denotes is strictly before today in calendar order; and the date
prompt of `main` stops repeating exactly on the strings that are well-formed
and not before today. -/
theorem isPastDate_calendar (year month day : Int) (date : Str) :
    (validateDate date = true →
      isPastDate (tmOf year month day) date =
        some (calendarBefore (dateDenoted date) (year, month, day))) ∧
    (datePromptRepeats (tmOf year month day) date = some false ↔
      (validateDate date = true ∧
        calendarBefore (dateDenoted date) (year, month, day) = false)) := by
  refine ⟨isPastDate_valid year month day date, ?_⟩
  unfold datePromptRepeats
  by_cases hv : validateDate date = true
  · simp [hv, isPastDate_valid year month day date hv]
  · simp [hv]

theorem isPastDate_calendar_witness :
    isPastDate (tmOf 2024 12 1) "05/01/2025".toList =
        some (calendarBefore (dateDenoted "05/01/2025".toList) (2024, 12, 1)) ∧
    isPastDate (tmOf 2024 12 1) "30/11/2024".toList = some true ∧
    isPastDate (tmOf 2024 12 1) "01/12/2024".toList = some false :=
  ⟨(isPastDate_calendar 2024 12 1 "05/01/2025".toList).1 (by decide), by decide, by decide⟩

end ConferenceSystem
